import Mathlib

/-!
# Verification of the annotation-span engine of the dropbox-ai editor

This file gives a shallow embedding of the position-tracking
highlight/annotation subsystem of the repository (the span registry, the
anchor rebaser in `handleTextChange`, the command interpreter in
`handleCommandSubmit`, custom-tab creation in `handleCreateCustomTab`,
edit application in `handleApplyEdit` / `handleAcceptEdit`, and the
display sort), and proves or refutes the specification claims about it.

Text is modelled as `List Char` (the flat plain-text surface exposed by
the editor widget).  JavaScript numbers used for offsets and lengths are
modelled as `Int`, keeping JS subtraction semantics honest.
-/

namespace DropboxAI

/-- Flat document / command text: a list of characters. -/
abbrev Str := List Char

/-- The whitespace class used by JS `\s`, `String.trim` and the
normalisation in the Edit Applier (ASCII fragment, which is all the
inputs exercised by the program contain). -/
def jsIsSpace (c : Char) : Bool :=
  c = ' ' || c = '\t' || c = '\n' || c = '\r'

/-- JS `String.toLowerCase` on ASCII input (`Char.toLower` lowers exactly
the ASCII upper-case letters, matching the commands the UI accepts). -/
def jsToLower (s : Str) : Str := s.map Char.toLower

/-- Strip leading whitespace (half of JS `String.trim`). -/
def ltrimS (s : Str) : Str := s.dropWhile jsIsSpace

/-- Strip trailing whitespace (half of JS `String.trim`). -/
def rtrimS (s : Str) : Str := List.rdropWhile jsIsSpace s

/-- JS `String.trim`. -/
def jsTrim (s : Str) : Str := ltrimS (rtrimS s)

/-- JS `String.startsWith`, i.e. list prefix test. -/
def startsWith (pre s : Str) : Bool := List.isPrefixOf pre s

/-- `quill.getText(index, length)`: the flat text slice at
`[index, index+length)` (clamped at the document edges, as quill does). -/
def sliceStr (doc : Str) (index length : Int) : Str :=
  (doc.drop index.toNat).take length.toNat

/-- quill's `deleteText(index, length)` on the flat text. -/
def deleteText (doc : Str) (index length : Int) : Str :=
  doc.take index.toNat ++ doc.drop (index.toNat + length.toNat)

/-- quill's `insertText(index, s)` on the flat text. -/
def insertText (doc : Str) (index : Int) (s : Str) : Str :=
  doc.take index.toNat ++ s ++ doc.drop index.toNat

/-- JS truthiness of an optional string field (`undefined` and `''` are
falsy, any non-empty string is truthy). -/
def otruthy : Option Str → Bool
  | none => false
  | some s => !s.isEmpty

/-- One annotation span ("tab item" in the source).  `position`/`length`
are the anchor (`anchorStart`/`anchorLength` of the spec),
`highlightedText` the cached anchored text, `createdAt` the creation
timestamp (modelled as an integer timestamp; ISO strings compare the
same way), `originalText`/`editedText` the edit-specific payload. -/
structure Item where
  id : Nat
  text : Str
  highlightedText : Str
  prompt : Str
  position : Int
  length : Int
  createdAt : Int
  isAIGenerated : Bool
  isManualComment : Bool
  tabId : Str
  originalText : Option Str
  editedText : Option Str
  deriving DecidableEq, Repr

/-- A user-defined custom tab (`{id, name, shortcut, items}`). -/
structure CustomTab where
  id : Str
  name : Str
  shortcut : Str
  items : List Item
  deriving DecidableEq, Repr

/-- The built-in tab groups: a JS object keyed by tab name, modelled as
an association list preserving key order (the component initialises it
with keys `summary`, `definitions`, `questions`, `edits`). -/
abbrev Tabs := List (Str × List Item)

/-- `tabs[k] || []`. -/
def getTab (tabs : Tabs) (k : Str) : List Item :=
  match tabs.find? (fun p => p.1 = k) with
  | some p => p.2
  | none => []

/-- The span registry held in component state: built-in tab groups plus
the custom tabs. -/
structure RegState where
  tabs : Tabs
  customTabs : List CustomTab
  deriving DecidableEq, Repr

/-- All spans of the registry, across every built-in and custom tab
(the flattened iteration the rebaser and click routing use). -/
def allItems (st : RegState) : List Item :=
  (st.tabs.map Prod.snd).flatten ++ (st.customTabs.map CustomTab.items).flatten

/-- The key of the built-in `edits` tab (the only built-in tab whose
items carry an `originalText` payload refresh on rebase). -/
def editsKey : Str := "edits".toList

/-! ## Anchor Rebaser (`handleTextChange` in DocumentEditor.jsx)

A quill text-change event, after the source's delta analysis, is
described by `{deletionStart, deletionLength, insertionStart,
insertionLength}`; `-1`/`0` mean the component is absent, exactly as the
source initialises those variables. -/

structure TextEvent where
  deletionStart : Int
  deletionLength : Int
  insertionStart : Int
  insertionLength : Int
  deriving DecidableEq, Repr

/-- A deletion-only event (`deletionStart = s`, `deletionLength = l`). -/
def mkDel (s l : Int) : TextEvent := ⟨s, l, -1, 0⟩

/-- An insertion-only event (`insertionStart = s`, `insertionLength = l`). -/
def mkIns (s l : Int) : TextEvent := ⟨-1, 0, s, l⟩

/-- The deletion branch of the rebaser, acting on one item
(DocumentEditor.jsx lines 866-929): removal on full containment,
clip/shrink with a text refresh on partial overlap, back-shift when the
item sits entirely after the deletion, identity otherwise.  `updOrig`
is the source's `originalText` refresh condition for the item's tab
(`tabKey === 'edits'` for built-in tabs, always allowed for custom
tabs); `doc` is the post-edit flat document text quill reports. -/
def delAdjustItem (updOrig : Bool) (doc : Str) (dS dL : Int) (it : Item) :
    Option Item :=
  let dE := dS + dL
  let s := it.position
  let e := it.position + it.length
  if ¬(dE ≤ s ∨ dS ≥ e) then
    if dS ≤ s ∧ dE ≥ e then
      none
    else
      let newStart := max s dS
      let newEnd := min e dE
      let ov := newEnd - newStart
      let newPos : Int := if dS ≤ s then dS else s
      let newLen := it.length - ov
      let txt := jsTrim (sliceStr doc newPos newLen)
      some { it with position := newPos, length := newLen,
                     highlightedText := txt,
                     originalText :=
                       if updOrig && otruthy it.originalText then some txt
                       else it.originalText }
  else if s ≥ dE then some { it with position := s - dL }
  else some it

/-- Whether the deletion branch sets `highlightsChanged` for this item
(any overlap, or a back-shift). -/
def delItemTouched (dS dL : Int) (it : Item) : Bool :=
  let dE := dS + dL
  let s := it.position
  let e := it.position + it.length
  decide (¬(dE ≤ s ∨ dS ≥ e)) || decide (s ≥ dE)

/-- The insertion branch of the rebaser, acting on one item
(DocumentEditor.jsx lines 1011-1040): growth with a text refresh when
the insertion lands strictly inside the item, forward shift when the
item starts at or after the insertion point, identity otherwise. -/
def insAdjustItem (updOrig : Bool) (doc : Str) (iS iL : Int) (it : Item) :
    Item :=
  let s := it.position
  let e := it.position + it.length
  if iS > s ∧ iS < e then
    let newLen := it.length + iL
    let txt := sliceStr doc s newLen
    { it with length := newLen, highlightedText := txt,
              originalText :=
                if updOrig && otruthy it.originalText then some txt
                else it.originalText }
  else if s ≥ iS then { it with position := s + iL }
  else it

/-- Whether the insertion branch sets `highlightsChanged` for this item. -/
def insItemTouched (iS : Int) (it : Item) : Bool :=
  let s := it.position
  let e := it.position + it.length
  decide (iS > s ∧ iS < e) || decide (s ≥ iS)

/-- The deletion pass over the whole registry (every built-in tab and
every custom tab). -/
def delPass (doc : Str) (dS dL : Int) (st : RegState) : RegState :=
  { tabs := st.tabs.map fun p =>
      (p.1, p.2.filterMap (delAdjustItem (p.1 = editsKey) doc dS dL)),
    customTabs := st.customTabs.map fun t =>
      { t with items := t.items.filterMap (delAdjustItem true doc dS dL) } }

/-- The `highlightsChanged` flag of the deletion pass. -/
def delChanged (dS dL : Int) (st : RegState) : Bool :=
  (st.tabs.any fun p => p.2.any (delItemTouched dS dL)) ||
  (st.customTabs.any fun t => t.items.any (delItemTouched dS dL))

/-- The insertion pass over the whole registry. -/
def insPass (doc : Str) (iS iL : Int) (st : RegState) : RegState :=
  { tabs := st.tabs.map fun p =>
      (p.1, p.2.map (insAdjustItem (p.1 = editsKey) doc iS iL)),
    customTabs := st.customTabs.map fun t =>
      { t with items := t.items.map (insAdjustItem true doc iS iL) } }

/-- The `highlightsChanged` flag of the insertion pass. -/
def insChanged (iS : Int) (st : RegState) : Bool :=
  (st.tabs.any fun p => p.2.any (insItemTouched iS)) ||
  (st.customTabs.any fun t => t.items.any (insItemTouched iS))

/-- One invocation of `handleTextChange` (DocumentEditor.jsx 828-1085)
acting on the registry state.  The deletion block commits its result via
`setTabs`/`setCustomTabs` only when its flag is set; the insertion block
reads the `tabs`/`customTabs` variables captured by the handler closure
— the registry as it was when the event fired, NOT the deletion block's
result — and, when its own flag is set, overwrites the state with the
insertion pass applied to that original registry. -/
def handleTextChange (ev : TextEvent) (doc : Str) (st : RegState) :
    RegState :=
  let st1 :=
    if ev.deletionStart ≥ 0 ∧ ev.deletionLength > 0 then
      if delChanged ev.deletionStart ev.deletionLength st then
        delPass doc ev.deletionStart ev.deletionLength st
      else st
    else st
  if ev.insertionStart ≥ 0 ∧ ev.insertionLength > 0 then
    if insChanged ev.insertionStart st then
      insPass doc ev.insertionStart ev.insertionLength st
    else st1
  else st1

/-- A sequence of text-change events, each paired with the flat document
text as it reads after that edit. -/
def applyEvents (evs : List (TextEvent × Str)) (st : RegState) : RegState :=
  evs.foldl (fun s p => handleTextChange p.1 p.2 s) st

/-! ## Command Interpreter (`handleCommandSubmit` parse section,
DocumentEditor.jsx lines 372-451) -/

/-- The result of a successful command parse: the target tab (a built-in
key or a custom tab id), whether the command invokes the AI, and the
free-form prompt/comment text. -/
structure ParseResult where
  tabName : Str
  useAI : Bool
  customPrompt : Str
  isCustomTab : Bool
  deriving DecidableEq, Repr

/-- The command parse of `handleCommandSubmit`: built-in prefixes are
tried first, in the source's order (`e/ai`, `s/ai`, `s/`, `d/ai`, `d/`,
`q/ai`, `q/`, then the bare letters `s`, `d`, `q`), then the custom-tab
shortcuts; `none` is the invalid-command signal (the alert-and-return
path, after which no span is created).  Built-in prompts are cut from
the lower-cased trimmed command, custom-tab prompts from the trimmed
original input, exactly as in the source. -/
def parseCommand (input : Str) (customTabs : List CustomTab) :
    Option ParseResult :=
  let cmd := jsToLower (jsTrim input)
  if startsWith "e/ai".toList cmd then
    some ⟨editsKey, true, jsTrim (cmd.drop 4), false⟩
  else if startsWith "s/ai".toList cmd then
    some ⟨"summary".toList, true, jsTrim (cmd.drop 4), false⟩
  else if startsWith "s/".toList cmd then
    some ⟨"summary".toList, false, jsTrim (cmd.drop 2), false⟩
  else if startsWith "d/ai".toList cmd then
    some ⟨"definitions".toList, true, jsTrim (cmd.drop 4), false⟩
  else if startsWith "d/".toList cmd then
    some ⟨"definitions".toList, false, jsTrim (cmd.drop 2), false⟩
  else if startsWith "q/ai".toList cmd then
    some ⟨"questions".toList, true, jsTrim (cmd.drop 4), false⟩
  else if startsWith "q/".toList cmd then
    some ⟨"questions".toList, false, jsTrim (cmd.drop 2), false⟩
  else if cmd = "s".toList then
    some ⟨"summary".toList, false, [], false⟩
  else if cmd = "d".toList then
    some ⟨"definitions".toList, false, [], false⟩
  else if cmd = "q".toList then
    some ⟨"questions".toList, false, [], false⟩
  else
    match customTabs.find? (fun t =>
        (cmd == t.shortcut) ||
        startsWith (t.shortcut ++ "/ai ".toList) cmd ||
        startsWith (t.shortcut ++ "/".toList) cmd) with
    | some t =>
      if startsWith (t.shortcut ++ "/ai ".toList) cmd then
        some ⟨t.id, true, jsTrim ((jsTrim input).drop (t.shortcut.length + 4)),
              true⟩
      else if startsWith (t.shortcut ++ "/".toList) cmd then
        some ⟨t.id, false, jsTrim ((jsTrim input).drop (t.shortcut.length + 1)),
              true⟩
      else
        some ⟨t.id, false, [], true⟩
    | none => none

/-- The span built by `handleCommandSubmit` after a successful parse
(DocumentEditor.jsx lines 500-517): `resultText` is the AI response (or
the selected text when no AI call is made), `edited` the AI
`editedText` for edit commands. -/
def createdItem (newId : Nat) (createdAt : Int) (pr : ParseResult)
    (selText resultText : Str) (edited : Option Str)
    (selIndex selLength : Int) : Item :=
  { id := newId
    text := resultText
    highlightedText := selText
    prompt := pr.customPrompt
    position := selIndex
    length := selLength
    createdAt := createdAt
    isAIGenerated := pr.useAI
    isManualComment := !pr.useAI && !pr.customPrompt.isEmpty
    tabId := pr.tabName
    originalText := if pr.tabName = editsKey then some selText else none
    editedText := if pr.tabName = editsKey then edited else none }

/-- `{...tabs, [k]: [...tabs[k], newItem]}`-style update of one built-in
tab group (all keys `handleCommandSubmit` resolves to exist from the
component's initial state). -/
def updateTab (tabs : Tabs) (k : Str) (f : List Item → List Item) : Tabs :=
  if (tabs.find? (fun p => p.1 = k)).isSome then
    tabs.map fun p => if p.1 = k then (p.1, f p.2) else p
  else tabs ++ [(k, f [])]

/-- Insertion of the new span into its tab group (DocumentEditor.jsx
lines 527-555). -/
def addSpan (pr : ParseResult) (item : Item) (st : RegState) : RegState :=
  if pr.isCustomTab then
    { st with customTabs := st.customTabs.map fun t =>
        if t.id = pr.tabName then { t with items := t.items ++ [item] }
        else t }
  else
    { st with tabs := updateTab st.tabs pr.tabName (fun l => l ++ [item]) }

/-! ## Custom-tab creation (`handleCreateCustomTab`,
DocumentEditor.jsx lines 291-319) -/

/-- Custom-tab creation: rejects (alert-and-return, modelled `none`) a
blank name or shortcut and a shortcut already used by an existing custom
tab; otherwise appends the new tab, with the shortcut lower-cased. -/
def handleCreateCustomTab (newTabName newTabShortcut : Str) (newId : Str)
    (customTabs : List CustomTab) : Option (List CustomTab) :=
  if (jsTrim newTabName).isEmpty || (jsTrim newTabShortcut).isEmpty then
    none
  else if (customTabs.find? fun t =>
      t.shortcut == jsToLower newTabShortcut).isSome then
    none
  else
    some (customTabs ++ [⟨newId, newTabName, jsToLower newTabShortcut, []⟩])

/-! ## Applying an accepted edit in the editor (`handleApplyEdit`,
DocumentEditor.jsx lines 579-605) -/

/-- `handleApplyEdit`: looks the edit up in the `edits` tab, replaces
its anchored range in the document (`deleteText` then `insertText` of
`editedText || text`), and removes the edit from the `edits` tab.  No
other span's anchor is touched (the programmatic edit fires no `user`
text-change, so the rebaser does not run).  Returns the updated registry
and document text. -/
def handleApplyEdit (editId : Nat) (st : RegState) (doc : Str) :
    RegState × Str :=
  match (getTab st.tabs editsKey).find? (fun e => e.id == editId) with
  | none => (st, doc)
  | some edit =>
    let textToInsert :=
      match edit.editedText with
      | some t => if t.isEmpty then edit.text else t
      | none => edit.text
    let doc1 := deleteText doc edit.position edit.length
    let doc2 := insertText doc1 edit.position textToInsert
    ({ st with tabs := updateTab st.tabs editsKey fun l =>
                  l.filter fun e => !(e.id == editId) }, doc2)

/-! ## Display ordering (DocumentEditor.jsx lines 1633-1648) -/

/-- The display order: primary key `position` ascending, secondary key
`createdAt` ascending — the total preorder induced by the source's sort
comparator. -/
def itemLE (a b : Item) : Prop :=
  a.position < b.position ∨ (a.position = b.position ∧ a.createdAt ≤ b.createdAt)

instance : DecidableRel itemLE := fun a b => by
  unfold itemLE; infer_instance

instance : IsTotal Item itemLE where
  total a b := by
    unfold itemLE
    rcases lt_trichotomy a.position b.position with h | h | h
    · exact Or.inl (Or.inl h)
    · rcases le_total a.createdAt b.createdAt with h2 | h2
      · exact Or.inl (Or.inr ⟨h, h2⟩)
      · exact Or.inr (Or.inr ⟨h.symm, h2⟩)
    · exact Or.inr (Or.inl h)

instance : IsTrans Item itemLE where
  trans a b c hab hbc := by
    unfold itemLE at *
    rcases hab with h1 | ⟨e1, l1⟩
    · rcases hbc with h2 | ⟨e2, l2⟩
      · exact Or.inl (h1.trans h2)
      · exact Or.inl (e2 ▸ h1)
    · rcases hbc with h2 | ⟨e2, l2⟩
      · exact Or.inl (e1 ▸ h2)
      · exact Or.inr ⟨e1.trans e2, l1.trans l2⟩

/-- The tab panel's item list: the active tab's raw items (a custom
tab's `items` or `tabs[activeTab] || []`). -/
def rawTabItems (st : RegState) (activeTab : Str) : List Item :=
  match st.customTabs.find? (fun t => t.id == activeTab) with
  | some t => t.items
  | none => getTab st.tabs activeTab

/-- The displayed sequence: the raw items sorted by the comparator
`(a, b) => a.position - b.position || (a.createdAt - b.createdAt)`.
JS `Array.prototype.sort` is a stable sort, modelled by the (stable)
insertion sort over the induced total preorder `itemLE`. -/
def displayedItems (st : RegState) (activeTab : Str) : List Item :=
  List.insertionSort itemLE (rawTabItems st activeTab)

/-! ## Edit Applier (`handleAcceptEdit` in the action-items component)

The serialized document body is modelled as its list of text-bearing
nodes (`List Str`); `doc.body.textContent` is their concatenation.
HTML-entity decoding is the identity on the entity-free plain text this
model carries. -/

/-- Whitespace collapsing: every maximal whitespace run becomes a single
space (the `/\s+/g → ' '` replacement). -/
def collapseWS : Str → Str
  | [] => []
  | [c] => [if jsIsSpace c then ' ' else c]
  | a :: b :: r =>
    if jsIsSpace a && jsIsSpace b then collapseWS (b :: r)
    else (if jsIsSpace a then ' ' else a) :: collapseWS (b :: r)

/-- `normalizeText` of the source: collapse whitespace runs, then trim. -/
def normalizeText (s : Str) : Str := jsTrim (collapseWS s)

/-- JS `s.includes(pat)` (case-sensitive substring test). -/
def containsSub (pat : Str) : Str → Bool
  | [] => pat.isEmpty
  | c :: r => List.isPrefixOf pat (c :: r) || containsSub pat r

/-- Case-insensitive substring test
(`s.toLowerCase().includes(pat.toLowerCase())`). -/
def containsCI (s pat : Str) : Bool :=
  containsSub (jsToLower pat) (jsToLower s)

/-- Case-insensitive prefix test. -/
def isPrefixOfCI (pat s : Str) : Bool :=
  List.isPrefixOf (jsToLower pat) (jsToLower s)

/-- Left-to-right, non-overlapping, case-insensitive replacement of a
non-empty literal pattern (`text.replace(new RegExp(escaped, 'gi'),
rep)` for a non-empty target). -/
def replCI (pat rep : Str) : Str → Str
  | [] => []
  | c :: r =>
    if isPrefixOfCI pat (c :: r) then
      rep ++ replCI pat rep (r.drop (pat.length - 1))
    else c :: replCI pat rep r
  termination_by s => s.length
  decreasing_by
    all_goals simp only [List.length_drop, List.length_cons]
    all_goals omega

/-- JS `text.replace(new RegExp(escapedPat, 'gi'), rep)`, including the
empty-pattern behaviour (an empty regex matches at every position, so
`rep` is inserted around every character). -/
def ciReplaceAll (pat rep : Str) (s : Str) : Str :=
  if pat.isEmpty then rep ++ s.foldr (fun c acc => c :: (rep ++ acc)) []
  else replCI pat rep s

/-- Length of the leading run satisfying `p`. -/
def countWhile (p : Char → Bool) (s : Str) : Nat := (s.takeWhile p).length

/-- Matcher for the tag-tolerant fallback pattern of §4.5 step 4: the
target's words in sequence, separated by one-or-more
whitespace-or-markup characters (whitespace, on the flattened text
surface), case-insensitively; returns the number of characters consumed
by the match, if any.  The source builds exactly this pattern for its
fallback (the target's escaped words joined by a whitespace-or-tags
separator, flags `gi`) but throws before applying it — see
`handleAcceptEdit`. -/
def matchWords : List Str → Str → Option Nat
  | [], _ => some 0
  | [w], s => if isPrefixOfCI w s then some w.length else none
  | w :: w2 :: ws, s =>
    if isPrefixOfCI w s then
      let rest := s.drop w.length
      let k := countWhile jsIsSpace rest
      if k = 0 then none
      else
        match matchWords (w2 :: ws) (rest.drop k) with
        | some n => some (w.length + k + n)
        | none => none
    else none

/-- Index of the first `)` or `]` reachable without crossing a line
break (the lazy `.*?[\)\]]` tail of the TODO pattern; the regex dot
does not match line terminators). -/
def findClose : Str → Option Nat
  | [] => none
  | c :: r =>
    if c = ')' || c = ']' then some 0
    else if c = '\n' || c = '\r' then none
    else
      match findClose r with
      | some n => some (n + 1)
      | none => none

/-- Length of a match of `/\s*[\(\[]TODO:.*?[\)\]]/i` at the head of
`s`, if any. -/
def todoMatchLen (s : Str) : Option Nat :=
  let k := countWhile jsIsSpace s
  match s.drop k with
  | c :: r =>
    if c = '(' || c = '[' then
      if isPrefixOfCI "TODO:".toList r then
        match findClose (r.drop 5) with
        | some m => some (k + 1 + 5 + m + 1)
        | none => none
      else none
    else none
  | [] => none

/-- Global removal of `/\s*[\(\[]TODO:.*?[\)\]]/gi` matches. -/
def todoStrip : Str → Str
  | [] => []
  | c :: r =>
    match todoMatchLen (c :: r) with
    | some (n + 1) => todoStrip (r.drop n)
    | _ => c :: todoStrip r
  termination_by s => s.length
  decreasing_by
    all_goals simp only [List.length_drop, List.length_cons]
    all_goals omega

/-- The best-effort TODO-comment cleanup applied to one text node after
a successful replacement: only nodes mentioning `TODO` and the first 30
characters of the task's description are touched. -/
def todoClean (desc : Str) (node : Str) : Str :=
  if containsSub "TODO".toList node && containsSub (desc.take 30) node then
    todoStrip node
  else node

/-- The per-node replacement of the Edit Applier's tree walk: a node
whose normalized text equals the normalized target (case-insensitively)
is replaced wholesale by the normalized suggestion; a node that merely
contains it gets the case-insensitive literal replacement applied to
its original text; other nodes are untouched. -/
def nodeReplace (target sugg : Str) (node : Str) : Str :=
  if containsCI (normalizeText node) target then
    if jsToLower (normalizeText node) = jsToLower target then sugg
    else ciReplaceAll target sugg node
  else node

/-- Whether the tree walk finds the target in some single node (the
`replaced` flag after the second pass). -/
def anyNodeContains (target : Str) (nodes : List Str) : Bool :=
  nodes.any fun n => containsCI (normalizeText n) target

/-- A word-edit task (`item.wordEdit` plus the fields of the action
item `handleAcceptEdit` consults). -/
structure EditTask where
  targetText : Str
  suggestedEdit : Str
  description : Str
  originalIndex : Nat
  deriving DecidableEq, Repr

/-- The store behind the RESTful persistence: the document's text nodes
and the action-item list. -/
structure Store where
  document : List Str
  actionItems : List EditTask
  deriving DecidableEq, Repr

/-- `handleAcceptEdit` (action-items component): normalize target and
suggestion, bail out (target-not-found alert, no write) if the
normalized target does not occur case-insensitively in the document's
flattened text; otherwise run the per-node replacement pass.  When no
single node contained the target, the source enters its tag-tolerant
fallback: it builds the flexible regex and re-checks the body text
(a check the first bail-out already guarantees), but then evaluates
`document.createElement('div')` — and `document` there is the fetched
response data (`const document = docResponse.data` at the top of the
handler shadows the DOM global; the entity-decoding helper above it
even says `window.document` to dodge the same shadowing) — so a
`TypeError` is thrown, the handler's surrounding catch alerts a generic
failure, and neither the content write nor the item deletion happens:
modelled as the `(st, false)` result of that branch.  The later
`if (!replaced)` bail-out of the source is kept after it.  On the
per-node success path the TODO markers are stripped and the rewritten
content (PUT) and the removal of the originating action item (DELETE)
are committed together.  The boolean reports success. -/
def handleAcceptEdit (task : EditTask) (st : Store) : Store × Bool :=
  let target := normalizeText task.targetText
  let sugg := normalizeText task.suggestedEdit
  let body := (st.document).flatten
  if !(containsCI (normalizeText body) target) then (st, false)
  else
    let doc1 := st.document.map (nodeReplace target sugg)
    let replaced := anyNodeContains target st.document
    if !replaced && containsCI (normalizeText body) target then
      (st, false)
    else if !replaced then
      (st, false)
    else
      let doc3 := doc1.map (todoClean task.description)
      ({ document := doc3,
         actionItems := st.actionItems.eraseIdx task.originalIndex }, true)

/-! ## The anchor-validity invariant (§3 of the spec) -/

/-- `anchorStart >= 0 ∧ anchorLength >= 0 ∧
anchorStart + anchorLength <= documentTextLength`. -/
def validItem (docLen : Int) (it : Item) : Prop :=
  0 ≤ it.position ∧ 0 ≤ it.length ∧ it.position + it.length ≤ docLen

instance (docLen : Int) (it : Item) : Decidable (validItem docLen it) := by
  unfold validItem; infer_instance

/-- Every span of the registry satisfies the anchor-validity invariant
for the given document length. -/
def allValid (docLen : Int) (st : RegState) : Prop :=
  ∀ it ∈ allItems st, validItem docLen it

instance (docLen : Int) (st : RegState) : Decidable (allValid docLen st) :=
  List.decidableBAll _ _

/-! ## Spec-side definitions (used by refinement claims only) -/

/-- An atomic user text mutation, as §8 of the spec quantifies over
them: one insertion or one deletion. -/
inductive Mut where
  | del (s l : Int)
  | ins (s l : Int)
  deriving DecidableEq, Repr

/-- The text-change event reported for an atomic mutation. -/
def Mut.toEvent : Mut → TextEvent
  | .del s l => mkDel s l
  | .ins s l => mkIns s l

/-- Spec-side: the signed length delta a mutation located before the
span contributes to its `anchorStart` (0 for a mutation after it). -/
def specShift : Mut → Int → Int
  | .del s l, pos => if s + l ≤ pos then -l else 0
  | .ins s l, pos => if s ≤ pos then l else 0

/-- Spec-side: the mutation is a genuine edit (`l > 0`, in-document
start) whose range lies strictly outside the span's current range
`[pos, pos + len)`. -/
def mutOutside : Mut → Int → Int → Prop
  | .del s l, pos, len => 0 ≤ s ∧ 0 < l ∧ (s + l ≤ pos ∨ s ≥ pos + len)
  | .ins s l, pos, len => 0 ≤ s ∧ 0 < l ∧ (s ≤ pos ∨ s ≥ pos + len)

/-- Spec-side: every mutation of the sequence lies strictly outside the
span's range as it stands when that mutation applies. -/
def OutsideSeq : List (Mut × Str) → Int → Int → Prop
  | [], _, _ => True
  | (m, _) :: rest, pos, len =>
    mutOutside m pos len ∧ OutsideSeq rest (pos + specShift m pos) len

/-- Spec-side: the net signed length delta of all mutations located
before the span. -/
def specNetShift : List (Mut × Str) → Int → Int
  | [], _ => 0
  | (m, _) :: rest, pos => specShift m pos + specNetShift rest (pos + specShift m pos)

/-- Spec-side (§4.2): for an event carrying both components, the
deletion pass applied to the whole registry first, then the insertion
pass applied to that just-updated state. -/
def specComposedRebase (ev : TextEvent) (doc : Str) (st : RegState) :
    RegState :=
  let st1 :=
    if ev.deletionStart ≥ 0 ∧ ev.deletionLength > 0 then
      delPass doc ev.deletionStart ev.deletionLength st
    else st
  if ev.insertionStart ≥ 0 ∧ ev.insertionLength > 0 then
    insPass doc ev.insertionStart ev.insertionLength st1
  else st1

/-! ## Helper lemmas about the rebaser passes -/

lemma delAdjust_of_untouched (u : Bool) (doc : Str) (dS dL : Int) (it : Item)
    (h : delItemTouched dS dL it = false) :
    delAdjustItem u doc dS dL it = some it := by
  unfold delItemTouched at h
  simp only [Bool.or_eq_false_iff, decide_eq_false_iff_not, not_not] at h
  unfold delAdjustItem
  rw [if_neg (not_not_intro h.1), if_neg h.2]

lemma insAdjust_of_untouched (u : Bool) (doc : Str) (iS iL : Int) (it : Item)
    (h : insItemTouched iS it = false) :
    insAdjustItem u doc iS iL it = it := by
  unfold insItemTouched at h
  simp only [Bool.or_eq_false_iff, decide_eq_false_iff_not] at h
  unfold insAdjustItem
  rw [if_neg h.1, if_neg h.2]

lemma filterMap_delAdjust_of_untouched (u : Bool) (doc : Str) (dS dL : Int)
    (l : List Item) (h : ∀ it ∈ l, delItemTouched dS dL it = false) :
    l.filterMap (delAdjustItem u doc dS dL) = l := by
  induction l with
  | nil => rfl
  | cons a t ih =>
    rw [List.filterMap_cons,
      delAdjust_of_untouched u doc dS dL a (h a (List.mem_cons_self a t)),
      ih fun it hit => h it (List.mem_cons_of_mem a hit)]

lemma map_insAdjust_of_untouched (u : Bool) (doc : Str) (iS iL : Int)
    (l : List Item) (h : ∀ it ∈ l, insItemTouched iS it = false) :
    l.map (insAdjustItem u doc iS iL) = l := by
  induction l with
  | nil => rfl
  | cons a t ih =>
    rw [List.map_cons,
      insAdjust_of_untouched u doc iS iL a (h a (List.mem_cons_self a t)),
      ih fun it hit => h it (List.mem_cons_of_mem a hit)]

lemma map_eq_self_of {a : Type} (l : List a) (f : a → a)
    (h : ∀ x ∈ l, f x = x) : l.map f = l := by
  induction l with
  | nil => rfl
  | cons x t ih =>
    rw [List.map_cons, h x (List.mem_cons_self x t),
      ih fun y hy => h y (List.mem_cons_of_mem x hy)]

lemma delPass_of_unchanged (doc : Str) (dS dL : Int) (st : RegState)
    (h : delChanged dS dL st = false) : delPass doc dS dL st = st := by
  unfold delChanged at h
  simp only [Bool.or_eq_false_iff, List.any_eq_false, Bool.not_eq_true] at h
  unfold delPass
  cases st with
  | mk tabs customTabs =>
    simp only [RegState.mk.injEq]
    constructor
    · refine map_eq_self_of _ _ fun p hp => ?_
      rw [filterMap_delAdjust_of_untouched _ doc dS dL p.2
        fun it hit => h.1 p hp it hit]
    · refine map_eq_self_of _ _ fun t ht => ?_
      rw [filterMap_delAdjust_of_untouched _ doc dS dL t.items
        fun it hit => h.2 t ht it hit]

lemma insPass_of_unchanged (doc : Str) (iS iL : Int) (st : RegState)
    (h : insChanged iS st = false) : insPass doc iS iL st = st := by
  unfold insChanged at h
  simp only [Bool.or_eq_false_iff, List.any_eq_false, Bool.not_eq_true] at h
  unfold insPass
  cases st with
  | mk tabs customTabs =>
    simp only [RegState.mk.injEq]
    constructor
    · refine map_eq_self_of _ _ fun p hp => ?_
      rw [map_insAdjust_of_untouched _ doc iS iL p.2 fun it hit => h.1 p hp it hit]
    · refine map_eq_self_of _ _ fun t ht => ?_
      rw [map_insAdjust_of_untouched _ doc iS iL t.items fun it hit => h.2 t ht it hit]

/-- For a deletion-only event the whole handler is the deletion pass. -/
lemma handleTextChange_del (s l : Int) (doc : Str) (st : RegState)
    (hs : 0 ≤ s) (hl : 0 < l) :
    handleTextChange (mkDel s l) doc st = delPass doc s l st := by
  unfold handleTextChange mkDel
  simp only
  rw [if_neg (show ¬((-1:Int) ≥ 0 ∧ (0:Int) > 0) by simp)]
  rw [if_pos (show s ≥ 0 ∧ l > 0 from ⟨hs, hl⟩)]
  by_cases h : delChanged s l st
  · rw [if_pos h]
  · rw [if_neg h, delPass_of_unchanged doc s l st (by simpa using h)]

/-- For an insertion-only event the whole handler is the insertion pass. -/
lemma handleTextChange_ins (s l : Int) (doc : Str) (st : RegState)
    (hs : 0 ≤ s) (hl : 0 < l) :
    handleTextChange (mkIns s l) doc st = insPass doc s l st := by
  unfold handleTextChange mkIns
  simp only
  rw [if_pos (show s ≥ 0 ∧ l > 0 from ⟨hs, hl⟩)]
  by_cases h : insChanged s st
  · rw [if_pos h]
  · rw [if_neg h, if_neg (show ¬((-1:Int) ≥ 0 ∧ (0:Int) > 0) by simp),
      insPass_of_unchanged doc s l st (by simpa using h)]

lemma mem_allItems_iff {st : RegState} {x : Item} :
    x ∈ allItems st ↔
      (∃ p ∈ st.tabs, x ∈ p.2) ∨ ∃ t ∈ st.customTabs, x ∈ t.items := by
  unfold allItems
  constructor
  · intro h
    rcases List.mem_append.mp h with h | h
    · obtain ⟨l, hl, hx⟩ := List.mem_flatten.mp h
      obtain ⟨p, hp, rfl⟩ := List.mem_map.mp hl
      exact Or.inl ⟨p, hp, hx⟩
    · obtain ⟨l, hl, hx⟩ := List.mem_flatten.mp h
      obtain ⟨t, ht, rfl⟩ := List.mem_map.mp hl
      exact Or.inr ⟨t, ht, hx⟩
  · rintro (⟨p, hp, hx⟩ | ⟨t, ht, hx⟩)
    · exact List.mem_append_left _
        (List.mem_flatten.mpr ⟨p.2, List.mem_map_of_mem _ hp, hx⟩)
    · exact List.mem_append_right _
        (List.mem_flatten.mpr ⟨t.items, List.mem_map_of_mem _ ht, hx⟩)

lemma mem_delPass_iff {doc : Str} {dS dL : Int} {st : RegState} {y : Item} :
    y ∈ allItems (delPass doc dS dL st) ↔
      (∃ p ∈ st.tabs, ∃ it ∈ p.2,
        delAdjustItem (decide (p.1 = editsKey)) doc dS dL it = some y) ∨
      ∃ t ∈ st.customTabs, ∃ it ∈ t.items,
        delAdjustItem true doc dS dL it = some y := by
  constructor
  · intro h
    rcases mem_allItems_iff.mp h with ⟨p', hp', hy⟩ | ⟨t', ht', hy⟩
    · obtain ⟨p, hp, rfl⟩ := List.mem_map.mp hp'
      obtain ⟨it, hit, hadj⟩ := List.mem_filterMap.mp hy
      exact Or.inl ⟨p, hp, it, hit, hadj⟩
    · obtain ⟨t, ht, rfl⟩ := List.mem_map.mp ht'
      obtain ⟨it, hit, hadj⟩ := List.mem_filterMap.mp hy
      exact Or.inr ⟨t, ht, it, hit, hadj⟩
  · rintro (⟨p, hp, it, hit, hadj⟩ | ⟨t, ht, it, hit, hadj⟩)
    · exact mem_allItems_iff.mpr (Or.inl ⟨_, List.mem_map_of_mem _ hp,
        List.mem_filterMap.mpr ⟨it, hit, hadj⟩⟩)
    · exact mem_allItems_iff.mpr (Or.inr ⟨_, List.mem_map_of_mem _ ht,
        List.mem_filterMap.mpr ⟨it, hit, hadj⟩⟩)

lemma mem_insPass_iff {doc : Str} {iS iL : Int} {st : RegState} {y : Item} :
    y ∈ allItems (insPass doc iS iL st) ↔
      (∃ p ∈ st.tabs, ∃ it ∈ p.2,
        insAdjustItem (decide (p.1 = editsKey)) doc iS iL it = y) ∨
      ∃ t ∈ st.customTabs, ∃ it ∈ t.items,
        insAdjustItem true doc iS iL it = y := by
  constructor
  · intro h
    rcases mem_allItems_iff.mp h with ⟨p', hp', hy⟩ | ⟨t', ht', hy⟩
    · obtain ⟨p, hp, rfl⟩ := List.mem_map.mp hp'
      obtain ⟨it, hit, hadj⟩ := List.mem_map.mp hy
      exact Or.inl ⟨p, hp, it, hit, hadj⟩
    · obtain ⟨t, ht, rfl⟩ := List.mem_map.mp ht'
      obtain ⟨it, hit, hadj⟩ := List.mem_map.mp hy
      exact Or.inr ⟨t, ht, it, hit, hadj⟩
  · rintro (⟨p, hp, it, hit, hadj⟩ | ⟨t, ht, it, hit, hadj⟩)
    · exact mem_allItems_iff.mpr (Or.inl ⟨_, List.mem_map_of_mem _ hp,
        List.mem_map.mpr ⟨it, hit, hadj⟩⟩)
    · exact mem_allItems_iff.mpr (Or.inr ⟨_, List.mem_map_of_mem _ ht,
        List.mem_map.mpr ⟨it, hit, hadj⟩⟩)

lemma item_pos_ext (it : Item) {a b : Int} (h : a = b) :
    ({ it with position := a } : Item) = { it with position := b } := by rw [h]

lemma item_pos_self (it : Item) {a : Int} (h : a = it.position) :
    ({ it with position := a } : Item) = it := by rw [h]

/-- A deletion strictly outside the span only shifts it: by `-dL` when
the deletion sits before the span, not at all when it sits after. -/
lemma delAdjust_outside (u : Bool) (doc : Str) {dS dL : Int} {it : Item}
    (hlen : 0 ≤ it.length)
    (hmo : mutOutside (.del dS dL) it.position it.length) :
    delAdjustItem u doc dS dL it =
      some { it with position := it.position + specShift (.del dS dL) it.position } := by
  obtain ⟨hs, hl, ho⟩ := hmo
  simp only [delAdjustItem, specShift]
  rcases ho with hb | ha
  · rw [if_neg (not_not_intro
        (Or.inl hb : dS + dL ≤ it.position ∨ dS ≥ it.position + it.length)),
      if_pos (show it.position ≥ dS + dL from hb), if_pos hb]
    exact congrArg some (item_pos_ext it (by omega))
  · rw [if_neg (not_not_intro
        (Or.inr ha : dS + dL ≤ it.position ∨ dS ≥ it.position + it.length)),
      if_neg (show ¬it.position ≥ dS + dL by omega),
      if_neg (show ¬dS + dL ≤ it.position by omega)]
    exact (congrArg some (item_pos_self it (by omega))).symm

/-- An insertion strictly outside the span only shifts it: by `+iL` when
the insertion point is at or before the span's start, not at all when it
is at or past its end. -/
lemma insAdjust_outside (u : Bool) (doc : Str) {iS iL : Int} {it : Item}
    (_hlen : 0 ≤ it.length)
    (hmo : mutOutside (.ins iS iL) it.position it.length) :
    insAdjustItem u doc iS iL it =
      { it with position := it.position + specShift (.ins iS iL) it.position } := by
  obtain ⟨hs, hl, ho⟩ := hmo
  simp only [insAdjustItem, specShift]
  rcases ho with hb | ha
  · rw [if_neg (show ¬(iS > it.position ∧ iS < it.position + it.length) by omega),
      if_pos (show it.position ≥ iS from hb), if_pos hb]
  · by_cases hc : iS ≤ it.position
    · rw [if_neg (show ¬(iS > it.position ∧ iS < it.position + it.length) by omega),
        if_pos (show it.position ≥ iS from hc), if_pos hc]
    · rw [if_neg (show ¬(iS > it.position ∧ iS < it.position + it.length) by omega),
        if_neg (show ¬it.position ≥ iS by omega), if_neg hc]
      exact (item_pos_self it (by omega)).symm

/-- One atomic mutation strictly outside a registered span leaves the
span registered, with only the spec-side shift applied to its
`anchorStart` (every other field, in particular `anchoredText`,
unchanged). -/
lemma step_outside (m : Mut) (doc : Str) {st : RegState} {it : Item}
    (hm : it ∈ allItems st) (hlen : 0 ≤ it.length)
    (ho : mutOutside m it.position it.length) :
    { it with position := it.position + specShift m it.position } ∈
      allItems (handleTextChange m.toEvent doc st) := by
  cases m with
  | del dS dL =>
    rw [show Mut.toEvent (.del dS dL) = mkDel dS dL from rfl,
      handleTextChange_del dS dL doc st ho.1 ho.2.1]
    rcases mem_allItems_iff.mp hm with ⟨p, hp, hit⟩ | ⟨t, ht, hit⟩
    · exact mem_delPass_iff.mpr (Or.inl ⟨p, hp, it, hit,
        delAdjust_outside _ doc hlen ho⟩)
    · exact mem_delPass_iff.mpr (Or.inr ⟨t, ht, it, hit,
        delAdjust_outside _ doc hlen ho⟩)
  | ins iS iL =>
    rw [show Mut.toEvent (.ins iS iL) = mkIns iS iL from rfl,
      handleTextChange_ins iS iL doc st ho.1 ho.2.1]
    rcases mem_allItems_iff.mp hm with ⟨p, hp, hit⟩ | ⟨t, ht, hit⟩
    · exact mem_insPass_iff.mpr (Or.inl ⟨p, hp, it, hit,
        insAdjust_outside _ doc hlen ho⟩)
    · exact mem_insPass_iff.mpr (Or.inr ⟨t, ht, it, hit,
        insAdjust_outside _ doc hlen ho⟩)

instance (m : Mut) (pos len : Int) : Decidable (mutOutside m pos len) := by
  cases m <;> simp only [mutOutside] <;> infer_instance

instance instDecidableOutsideSeq :
    (ms : List (Mut × Str)) → (pos len : Int) → Decidable (OutsideSeq ms pos len)
  | [], _, _ => isTrue trivial
  | (m, _) :: tl, pos, len =>
    haveI := instDecidableOutsideSeq tl (pos + specShift m pos) len
    decidable_of_iff
      (mutOutside m pos len ∧ OutsideSeq tl (pos + specShift m pos) len)
      Iff.rfl

/-- **C1** (anchor stability): for every registered span and every
sequence of atomic user mutations (insertions/deletions, each with the
post-edit document text it reports) whose ranges lie strictly outside
the span's current range, the rebased registry still contains the span
with every field — in particular `anchoredText` — unchanged except that
`anchorStart` is shifted by exactly the net signed length delta of the
mutations located before the span (`specNetShift`). -/
theorem anchor_stability (ms : List (Mut × Str)) (st : RegState) (it : Item)
    (hm : it ∈ allItems st) (hlen : 0 ≤ it.length)
    (ho : OutsideSeq ms it.position it.length) :
    { it with position := it.position + specNetShift ms it.position } ∈
      allItems (applyEvents (ms.map fun p => (p.1.toEvent, p.2)) st) := by
  induction ms generalizing st it with
  | nil =>
    simp only [applyEvents, List.map_nil, List.foldl_nil, specNetShift]
    rw [item_pos_self it (add_zero _)]
    exact hm
  | cons hd tl ih =>
    obtain ⟨m, d⟩ := hd
    simp only [OutsideSeq] at ho
    obtain ⟨h1, h2⟩ := ho
    have hstep := step_outside m d hm hlen h1
    have hrest := ih (handleTextChange m.toEvent d st)
      { it with position := it.position + specShift m it.position } hstep hlen h2
    simp only [applyEvents, List.map_cons, List.foldl_cons] at hrest ⊢
    have heq :
        ({ it with position := it.position + specNetShift ((m, d) :: tl) it.position } : Item)
          = { it with position :=
                (it.position + specShift m it.position) +
                  specNetShift tl (it.position + specShift m it.position) } := by
      refine item_pos_ext it ?_
      simp only [specNetShift]
      omega
    rw [heq]
    exact hrest

/-- Witness for C1: a span at `[10, 12)` survives a deletion before it,
an insertion before it and a deletion after it, ending at position 13
(net delta `-2 + 5 + 0`), text untouched. -/
def wC1It : Item :=
  { id := 1, text := [], highlightedText := "ab".toList, prompt := []
    position := 10, length := 2, createdAt := 0, isAIGenerated := false
    isManualComment := false, tabId := "summary".toList
    originalText := none, editedText := none }

def wC1St : RegState := ⟨[("summary".toList, [wC1It])], []⟩

def wC1Ms : List (Mut × Str) :=
  [(.del 0 2, "abcdefghijklmno".toList),
   (.ins 3 5, "abcdefghijklmnopqrst".toList),
   (.del 20 4, "abcdefghijklmnop".toList)]

theorem anchor_stability_witness :
    { wC1It with position := wC1It.position + specNetShift wC1Ms wC1It.position } ∈
      allItems (applyEvents (wC1Ms.map fun p => (p.1.toEvent, p.2)) wC1St) :=
  anchor_stability wC1Ms wC1St wC1It (by decide) (by decide) (by decide)

/-! ## Id tracking: the rebaser never invents spans -/

lemma delAdjust_id {u : Bool} {doc : Str} {dS dL : Int} {it y : Item}
    (h : delAdjustItem u doc dS dL it = some y) : y.id = it.id := by
  simp only [delAdjustItem] at h
  split_ifs at h <;>
    first
      | exact Option.noConfusion h
      | (injection h with h; subst h; rfl)

lemma insAdjust_id (u : Bool) (doc : Str) (iS iL : Int) (it : Item) :
    (insAdjustItem u doc iS iL it).id = it.id := by
  simp only [insAdjustItem]
  split_ifs <;> rfl

lemma ids_delPass {doc : Str} {dS dL : Int} {st : RegState} {y : Item}
    (h : y ∈ allItems (delPass doc dS dL st)) :
    ∃ x ∈ allItems st, y.id = x.id := by
  rcases mem_delPass_iff.mp h with ⟨p, hp, x, hx, hadj⟩ | ⟨t, ht, x, hx, hadj⟩
  · exact ⟨x, mem_allItems_iff.mpr (Or.inl ⟨p, hp, hx⟩), delAdjust_id hadj⟩
  · exact ⟨x, mem_allItems_iff.mpr (Or.inr ⟨t, ht, hx⟩), delAdjust_id hadj⟩

lemma ids_insPass {doc : Str} {iS iL : Int} {st : RegState} {y : Item}
    (h : y ∈ allItems (insPass doc iS iL st)) :
    ∃ x ∈ allItems st, y.id = x.id := by
  rcases mem_insPass_iff.mp h with ⟨p, hp, x, hx, hadj⟩ | ⟨t, ht, x, hx, hadj⟩
  · exact ⟨x, mem_allItems_iff.mpr (Or.inl ⟨p, hp, hx⟩),
      hadj ▸ insAdjust_id _ doc iS iL x⟩
  · exact ⟨x, mem_allItems_iff.mpr (Or.inr ⟨t, ht, hx⟩),
      hadj ▸ insAdjust_id _ doc iS iL x⟩

/-- Every span in the registry after a text-change event carries the id
of a span that was already registered before it. -/
lemma ids_handleTextChange {ev : TextEvent} {doc : Str} {st : RegState}
    {y : Item} (h : y ∈ allItems (handleTextChange ev doc st)) :
    ∃ x ∈ allItems st, y.id = x.id := by
  unfold handleTextChange at h
  split_ifs at h <;>
    first
      | exact ⟨y, h, rfl⟩
      | exact ids_delPass h
      | exact ids_insPass h

lemma ids_applyEvents (evs : List (TextEvent × Str)) (st : RegState) (y : Item)
    (h : y ∈ allItems (applyEvents evs st)) : ∃ x ∈ allItems st, y.id = x.id := by
  induction evs generalizing st with
  | nil => exact ⟨y, h, rfl⟩
  | cons e tl ih =>
    obtain ⟨x, hx, hid⟩ := ih (handleTextChange e.1 e.2 st) h
    obtain ⟨x2, hx2, hid2⟩ := ids_handleTextChange hx
    exact ⟨x2, hx2, hid.trans hid2⟩

/-- A deletion fully containing a (positive-length) span removes it. -/
lemma delAdjust_contained {u : Bool} {doc : Str} {dS dL : Int} {it : Item}
    (hlen : 0 < it.length) (h1 : dS ≤ it.position)
    (h2 : it.position + it.length ≤ dS + dL) :
    delAdjustItem u doc dS dL it = none := by
  simp only [delAdjustItem]
  rw [if_pos (show ¬(dS + dL ≤ it.position ∨ dS ≥ it.position + it.length) by omega),
    if_pos ⟨h1, by omega⟩]

/-- **C3** (amended: deletion-only event, span of positive length): a
user deletion `[dS, dS+dL)` fully containing a registered span's range
removes every span with its id from every built-in and custom tab, and
no span with that id reappears under any sequence of subsequent
text-change events. -/
theorem full_deletion_removal (dS dL : Int) (doc : Str) (st : RegState)
    (it : Item) (hs : 0 ≤ dS) (hl : 0 < dL) (hlen : 0 < it.length)
    (h1 : dS ≤ it.position) (h2 : it.position + it.length ≤ dS + dL)
    (huniq : ∀ x ∈ allItems st, x.id = it.id → x = it) :
    (∀ y ∈ allItems (handleTextChange (mkDel dS dL) doc st), y.id ≠ it.id) ∧
    ∀ evs : List (TextEvent × Str),
      ∀ y ∈ allItems (applyEvents evs (handleTextChange (mkDel dS dL) doc st)),
        y.id ≠ it.id := by
  have hbase : ∀ y ∈ allItems (handleTextChange (mkDel dS dL) doc st),
      y.id ≠ it.id := by
    intro y hy heq
    rw [handleTextChange_del dS dL doc st hs hl] at hy
    rcases mem_delPass_iff.mp hy with ⟨p, hp, x, hx, hadj⟩ | ⟨t, ht, x, hx, hadj⟩
    · have hxit : x = it := huniq x (mem_allItems_iff.mpr (Or.inl ⟨p, hp, hx⟩))
        ((delAdjust_id hadj) ▸ heq)
      rw [hxit, delAdjust_contained hlen h1 h2] at hadj
      exact Option.noConfusion hadj
    · have hxit : x = it := huniq x (mem_allItems_iff.mpr (Or.inr ⟨t, ht, hx⟩))
        ((delAdjust_id hadj) ▸ heq)
      rw [hxit, delAdjust_contained hlen h1 h2] at hadj
      exact Option.noConfusion hadj
  refine ⟨hbase, fun evs y hy heq => ?_⟩
  obtain ⟨x, hx, hid⟩ := ids_applyEvents evs _ y hy
  exact hbase x hx (hid ▸ heq)

/-- Witness for C3: the span `[5, 8)` (id 7) disappears for good under
the deletion `[4, 10)`. -/
def wC3It : Item :=
  { id := 7, text := [], highlightedText := "abc".toList, prompt := []
    position := 5, length := 3, createdAt := 0, isAIGenerated := false
    isManualComment := false, tabId := "questions".toList
    originalText := none, editedText := none }

def wC3St : RegState := ⟨[("questions".toList, [wC3It])], []⟩

theorem full_deletion_removal_witness :
    (∀ y ∈ allItems (handleTextChange (mkDel 4 6) "abcd".toList wC3St),
      y.id ≠ wC3It.id) ∧
    ∀ evs : List (TextEvent × Str),
      ∀ y ∈ allItems (applyEvents evs (handleTextChange (mkDel 4 6) "abcd".toList wC3St)),
        y.id ≠ wC3It.id :=
  full_deletion_removal 4 6 "abcd".toList wC3St wC3It (by decide) (by decide)
    (by decide) (by decide) (by decide) (by decide)

/-- The span of the C3 counterexample: `[2, 4)` in the summary tab. -/
def wC3bIt : Item :=
  { id := 9, text := [], highlightedText := "cd".toList, prompt := []
    position := 2, length := 2, createdAt := 0, isAIGenerated := false
    isManualComment := false, tabId := "summary".toList
    originalText := none, editedText := none }

def wC3bSt : RegState := ⟨[("summary".toList, [wC3bIt])], []⟩

/-- Counterexample to C3 as stated: the replace-style event that deletes
`[0, 6)` — fully containing the span `[2, 4)` — while inserting one
character at offset 0 (select-and-type) does NOT remove the span: the
insertion block overwrites the deletion block's state update with the
insertion pass over the pre-deletion registry, so the span survives,
shifted to position 3. -/
theorem full_deletion_removal_counterexample :
    (0 : Int) ≤ wC3bIt.position ∧
    wC3bIt.position + wC3bIt.length ≤ 0 + 6 ∧
    (allItems (handleTextChange ⟨0, 6, 0, 1⟩ "xghij".toList wC3bSt)).map
      Item.id = [9] := by decide

/-! ## C4: insertion strictly inside a span -/

lemma insAdjust_inside_props (u : Bool) (doc : Str) (iS iL : Int) (it : Item)
    (hin : it.position < iS ∧ iS < it.position + it.length) :
    (insAdjustItem u doc iS iL it).id = it.id ∧
    (insAdjustItem u doc iS iL it).position = it.position ∧
    (insAdjustItem u doc iS iL it).length = it.length + iL ∧
    (insAdjustItem u doc iS iL it).highlightedText =
      sliceStr doc it.position (it.length + iL) := by
  simp only [insAdjustItem]
  rw [if_pos ⟨hin.1, hin.2⟩]
  exact ⟨rfl, rfl, rfl, rfl⟩

/-- **C4** (insertion-inside growth): a user insertion of length `iL`
strictly inside a registered span's range leaves a span with the same
id and `anchorStart` in the registry, with `anchorLength` grown by
exactly `iL` and `anchoredText` refreshed to the live document text at
the grown anchor. -/
theorem insertion_inside_growth (iS iL : Int) (doc : Str) (st : RegState)
    (it : Item) (hs : 0 ≤ iS) (hl : 0 < iL) (hm : it ∈ allItems st)
    (hin : it.position < iS ∧ iS < it.position + it.length) :
    ∃ y ∈ allItems (handleTextChange (mkIns iS iL) doc st),
      y.id = it.id ∧ y.position = it.position ∧ y.length = it.length + iL ∧
      y.highlightedText = sliceStr doc it.position (it.length + iL) := by
  rw [handleTextChange_ins iS iL doc st hs hl]
  rcases mem_allItems_iff.mp hm with ⟨p, hp, hx⟩ | ⟨t, ht, hx⟩
  · exact ⟨insAdjustItem (decide (p.1 = editsKey)) doc iS iL it,
      mem_insPass_iff.mpr (Or.inl ⟨p, hp, it, hx, rfl⟩),
      insAdjust_inside_props _ doc iS iL it hin⟩
  · exact ⟨insAdjustItem true doc iS iL it,
      mem_insPass_iff.mpr (Or.inr ⟨t, ht, it, hx, rfl⟩),
      insAdjust_inside_props _ doc iS iL it hin⟩

/-- Witness for C4: inserting 3 characters at offset 4 inside the span
`[2, 6)` grows it to length 7. -/
def wC4It : Item :=
  { id := 4, text := [], highlightedText := "2345".toList, prompt := []
    position := 2, length := 4, createdAt := 0, isAIGenerated := true
    isManualComment := false, tabId := editsKey
    originalText := some "2345".toList, editedText := some "x".toList }

def wC4St : RegState := ⟨[(editsKey, [wC4It])], []⟩

theorem insertion_inside_growth_witness :
    ∃ y ∈ allItems (handleTextChange (mkIns 4 3) "0123456789abc".toList wC4St),
      y.id = wC4It.id ∧ y.position = wC4It.position ∧
      y.length = wC4It.length + 3 ∧
      y.highlightedText = sliceStr "0123456789abc".toList wC4It.position (wC4It.length + 3) :=
  insertion_inside_growth 4 3 "0123456789abc".toList wC4St wC4It (by decide)
    (by decide) (by decide) (by decide)

/-! ## C2: partial-overlap deletion -/

lemma delAdjust_partial_props (u : Bool) (doc : Str) (dS dL : Int) (it : Item)
    (hov : ¬(dS + dL ≤ it.position ∨ dS ≥ it.position + it.length))
    (hnc : ¬(dS ≤ it.position ∧ dS + dL ≥ it.position + it.length)) :
    ∃ y, delAdjustItem u doc dS dL it = some y ∧ y.id = it.id ∧
      y.position = (if dS ≤ it.position then dS else it.position) ∧
      y.length = it.length -
        (min (it.position + it.length) (dS + dL) - max it.position dS) ∧
      y.highlightedText = jsTrim (sliceStr doc
        (if dS ≤ it.position then dS else it.position)
        (it.length - (min (it.position + it.length) (dS + dL) - max it.position dS))) := by
  simp only [delAdjustItem]
  rw [if_pos hov, if_neg hnc]
  exact ⟨_, rfl, rfl, rfl, rfl, rfl⟩

/-- **C2** (amended): for a user deletion `[dS, dS+dL)` partially
overlapping a registered span, the registry afterwards holds a span with
the same id whose `anchorStart` is `dS` itself when the deletion clips
the span's start (`dS <= spanStart`) — not `max(spanStart, dS)` as the
spec claims — and `spanStart` otherwise; whose `anchorLength` shrinks by
exactly the overlap length; and whose `anchoredText` is the live
document text at the new anchor, whitespace-trimmed. -/
theorem partial_deletion_shrink (dS dL : Int) (doc : Str) (st : RegState)
    (it : Item) (hs : 0 ≤ dS) (hl : 0 < dL) (hm : it ∈ allItems st)
    (hov : ¬(dS + dL ≤ it.position ∨ dS ≥ it.position + it.length))
    (hnc : ¬(dS ≤ it.position ∧ dS + dL ≥ it.position + it.length)) :
    ∃ y ∈ allItems (handleTextChange (mkDel dS dL) doc st),
      y.id = it.id ∧
      y.position = (if dS ≤ it.position then dS else it.position) ∧
      y.length = it.length -
        (min (it.position + it.length) (dS + dL) - max it.position dS) ∧
      y.highlightedText = jsTrim (sliceStr doc y.position y.length) := by
  rw [handleTextChange_del dS dL doc st hs hl]
  rcases mem_allItems_iff.mp hm with ⟨p, hp, hx⟩ | ⟨t, ht, hx⟩
  · obtain ⟨y, hadj, hid, hpos, hlen, htxt⟩ :=
      delAdjust_partial_props (decide (p.1 = editsKey)) doc dS dL it hov hnc
    exact ⟨y, mem_delPass_iff.mpr (Or.inl ⟨p, hp, it, hx, hadj⟩), hid, hpos, hlen,
      by rw [hpos, hlen]; exact htxt⟩
  · obtain ⟨y, hadj, hid, hpos, hlen, htxt⟩ :=
      delAdjust_partial_props true doc dS dL it hov hnc
    exact ⟨y, mem_delPass_iff.mpr (Or.inr ⟨t, ht, it, hx, hadj⟩), hid, hpos, hlen,
      by rw [hpos, hlen]; exact htxt⟩

/-- The partially-overlapped span of the C2 counterexample:
`[5, 10)` in the summary tab. -/
def wC2It : Item :=
  { id := 1, text := [], highlightedText := "fghij".toList, prompt := []
    position := 5, length := 5, createdAt := 0, isAIGenerated := false
    isManualComment := false, tabId := "summary".toList
    originalText := none, editedText := none }

def wC2St : RegState := ⟨[("summary".toList, [wC2It])], []⟩

/-- Counterexample to C2 as stated: deleting `[3, 7)` clips the start of
the span `[5, 10)`; the code rebases the span to `anchorStart = 3`
(`deletionStart`, the surviving text's post-deletion offset), while the
claim demands `max(spanStart, dS) = max 5 3 = 5`. -/
theorem partial_deletion_shrink_counterexample :
    (allItems (handleTextChange (mkDel 3 4) "abcdefgh".toList wC2St)).map
        Item.position = [3] ∧ (3 : Int) ≠ max 5 3 := by decide

/-- Witness for the amended C2. -/
theorem partial_deletion_shrink_witness :
    ∃ y ∈ allItems (handleTextChange (mkDel 3 4) "abcdefgh".toList wC2St),
      y.id = wC2It.id ∧
      y.position = (if (3:Int) ≤ wC2It.position then 3 else wC2It.position) ∧
      y.length = wC2It.length -
        (min (wC2It.position + wC2It.length) (3 + 4) - max wC2It.position 3) ∧
      y.highlightedText = jsTrim (sliceStr "abcdefgh".toList y.position y.length) :=
  partial_deletion_shrink 3 4 "abcdefgh".toList wC2St wC2It (by decide)
    (by decide) (by decide) (by decide) (by decide)

/-! ## C5: events carrying both a deletion and an insertion -/

def wC5It : Item :=
  { id := 3, text := [], highlightedText := "kl".toList, prompt := []
    position := 10, length := 2, createdAt := 0, isAIGenerated := false
    isManualComment := false, tabId := "summary".toList
    originalText := none, editedText := none }

def wC5St : RegState := ⟨[("summary".toList, [wC5It])], []⟩

/-- Counterexample to C5 as stated: for the event deleting `[0, 2)` and
inserting 3 characters at offset 5, with a span at `[10, 12)`, the code
yields `anchorStart = 13` (insertion pass applied to the pre-deletion
registry — the deletion pass's state update is overwritten), whereas the
spec's composition (deletion pass, then insertion pass on the
just-updated state) yields `anchorStart = 11`. -/
theorem deletion_then_insertion_counterexample :
    handleTextChange ⟨0, 2, 5, 3⟩ "abcdefghijklmnop".toList wC5St ≠
      specComposedRebase ⟨0, 2, 5, 3⟩ "abcdefghijklmnop".toList wC5St := by
  decide

/-- For an event carrying both components, the committed state is the
insertion pass over the pre-deletion registry when that pass touched
anything, else the deletion block's result. -/
lemma handleTextChange_both (ev : TextEvent) (doc : Str)
    (st : RegState) (hd : ev.deletionStart ≥ 0 ∧ ev.deletionLength > 0)
    (hi : ev.insertionStart ≥ 0 ∧ ev.insertionLength > 0) :
    handleTextChange ev doc st =
      if insChanged ev.insertionStart st then
        insPass doc ev.insertionStart ev.insertionLength st
      else if delChanged ev.deletionStart ev.deletionLength st then
        delPass doc ev.deletionStart ev.deletionLength st
      else st := by
  unfold handleTextChange
  rw [if_pos hd, if_pos hi]

/-- **C5** (amended): for a mutation event carrying both a deletion and
an insertion component whose insertion pass touches at least one span,
the registry the handler commits consists exactly of the
insertion-adjusted images of the ORIGINAL spans — the deletion
adjustments are discarded (the insertion block reads the state captured
before the deletion block's update and its `setTabs`/`setCustomTabs`
lands last), so the result is not, in general, the insertion pass
composed after the deletion pass. -/
theorem deletion_then_insertion_composition (ev : TextEvent) (doc : Str)
    (st : RegState) (hd : ev.deletionStart ≥ 0 ∧ ev.deletionLength > 0)
    (hi : ev.insertionStart ≥ 0 ∧ ev.insertionLength > 0)
    (hins : insChanged ev.insertionStart st = true) :
    ∀ y, y ∈ allItems (handleTextChange ev doc st) ↔
      ((∃ p ∈ st.tabs, ∃ it ∈ p.2,
          insAdjustItem (decide (p.1 = editsKey)) doc ev.insertionStart
            ev.insertionLength it = y) ∨
        ∃ t ∈ st.customTabs, ∃ it ∈ t.items,
          insAdjustItem true doc ev.insertionStart ev.insertionLength it = y) := by
  intro y
  rw [handleTextChange_both ev doc st hd hi, if_pos hins]
  exact mem_insPass_iff

/-- Witness for the amended C5, at the counterexample's event: the span
`[10, 12)` ends up at `[13, 15)` — shifted only by the insertion. -/
theorem deletion_then_insertion_composition_witness :
    ({ wC5It with position := 13 } : Item) ∈
        allItems (handleTextChange ⟨0, 2, 5, 3⟩ "abcdefghijklmnop".toList wC5St) ↔
      ((∃ p ∈ wC5St.tabs, ∃ it ∈ p.2,
          insAdjustItem (decide (p.1 = editsKey)) "abcdefghijklmnop".toList 5 3 it
            = { wC5It with position := 13 }) ∨
        ∃ t ∈ wC5St.customTabs, ∃ it ∈ t.items,
          insAdjustItem true "abcdefghijklmnop".toList 5 3 it
            = { wC5It with position := 13 }) :=
  deletion_then_insertion_composition ⟨0, 2, 5, 3⟩ "abcdefghijklmnop".toList
    wC5St (by decide) (by decide) (by decide) { wC5It with position := 13 }

/-! ## C9: the anchor-validity invariant -/

lemma mem_updateTab_cases {tabs : Tabs} {k : Str} {f : List Item → List Item}
    {p : Str × List Item} (h : p ∈ updateTab tabs k f) :
    p ∈ tabs ∨ (∃ q ∈ tabs, q.1 = k ∧ p = (q.1, f q.2)) ∨ p = (k, f []) := by
  unfold updateTab at h
  split_ifs at h with hex
  · obtain ⟨q, hq, hpq⟩ := List.mem_map.mp h
    by_cases hqk : q.1 = k
    · rw [if_pos hqk] at hpq
      exact Or.inr (Or.inl ⟨q, hq, hqk, hpq.symm⟩)
    · rw [if_neg hqk] at hpq
      exact Or.inl (hpq ▸ hq)
  · rcases List.mem_append.mp h with h | h
    · exact Or.inl h
    · exact Or.inr (Or.inr (List.mem_singleton.mp h))

/-- Everything in the registry after `addSpan` is an old span or the new
one. -/
lemma mem_addSpan {pr : ParseResult} {item : Item} {st : RegState} {y : Item}
    (h : y ∈ allItems (addSpan pr item st)) : y ∈ allItems st ∨ y = item := by
  unfold addSpan at h
  split_ifs at h with hc
  · rcases mem_allItems_iff.mp h with ⟨p, hp, hy⟩ | ⟨t, ht, hy⟩
    · exact Or.inl (mem_allItems_iff.mpr (Or.inl ⟨p, hp, hy⟩))
    · obtain ⟨t0, ht0, rfl⟩ := List.mem_map.mp ht
      by_cases he : t0.id = pr.tabName
      · rw [if_pos he] at hy
        rcases List.mem_append.mp hy with hy | hy
        · exact Or.inl (mem_allItems_iff.mpr (Or.inr ⟨t0, ht0, hy⟩))
        · exact Or.inr (List.mem_singleton.mp hy)
      · rw [if_neg he] at hy
        exact Or.inl (mem_allItems_iff.mpr (Or.inr ⟨t0, ht0, hy⟩))
  · rcases mem_allItems_iff.mp h with ⟨p, hp, hy⟩ | ⟨t, ht, hy⟩
    · replace hp : p ∈ updateTab st.tabs pr.tabName (fun l => l ++ [item]) := hp
      rcases mem_updateTab_cases hp with hp | ⟨q, hq, _, rfl⟩ | rfl
      · exact Or.inl (mem_allItems_iff.mpr (Or.inl ⟨p, hp, hy⟩))
      · rcases List.mem_append.mp hy with hy | hy
        · exact Or.inl (mem_allItems_iff.mpr (Or.inl ⟨q, hq, hy⟩))
        · exact Or.inr (List.mem_singleton.mp hy)
      · rcases List.mem_append.mp hy with hy | hy
        · exact absurd hy (List.not_mem_nil y)
        · exact Or.inr (List.mem_singleton.mp hy)
    · exact Or.inl (mem_allItems_iff.mpr (Or.inr ⟨t, ht, hy⟩))

/-- `handleApplyEdit` never adds or rewrites the spans that remain. -/
lemma mem_handleApplyEdit {editId : Nat} {st : RegState} {doc : Str} {y : Item}
    (h : y ∈ allItems (handleApplyEdit editId st doc).1) : y ∈ allItems st := by
  unfold handleApplyEdit at h
  cases hfind : (getTab st.tabs editsKey).find? (fun e => e.id == editId) with
  | none => rw [hfind] at h; exact h
  | some edit =>
    rw [hfind] at h
    simp only at h
    rcases mem_allItems_iff.mp h with ⟨p, hp, hy⟩ | ⟨t, ht, hy⟩
    · replace hp : p ∈ updateTab st.tabs editsKey
          (fun l => l.filter fun e => !(e.id == editId)) := hp
      rcases mem_updateTab_cases hp with hp | ⟨q, hq, _, rfl⟩ | rfl
      · exact mem_allItems_iff.mpr (Or.inl ⟨p, hp, hy⟩)
      · exact mem_allItems_iff.mpr
          (Or.inl ⟨q, hq, List.mem_of_mem_filter hy⟩)
      · exact absurd hy (by simp)
    · exact mem_allItems_iff.mpr (Or.inr ⟨t, ht, hy⟩)

/-- The deletion branch preserves anchor validity (against the
post-deletion document length). -/
lemma delAdjust_valid {u : Bool} {doc : Str} {dS dL docLen : Int} {it y : Item}
    (hs : 0 ≤ dS) (hb : dS + dL ≤ docLen) (hv : validItem docLen it)
    (h : delAdjustItem u doc dS dL it = some y) :
    validItem (docLen - dL) y := by
  obtain ⟨h1, h2, h3⟩ := hv
  simp only [delAdjustItem] at h
  split_ifs at h with ha hc hd hd <;>
    first
      | exact Option.noConfusion h
      | (injection h with h; subst h; simp only [validItem]; omega)

/-- The insertion branch preserves anchor validity (against the
post-insertion document length). -/
lemma insAdjust_valid {u : Bool} {doc : Str} {iS iL docLen : Int} {it : Item}
    (hl : 0 ≤ iL) (hv : validItem docLen it) :
    validItem (docLen + iL) (insAdjustItem u doc iS iL it) := by
  obtain ⟨h1, h2, h3⟩ := hv
  simp only [insAdjustItem]
  split_ifs with ha hb <;> simp only [validItem] <;> omega

/-- The counterexample registry: a pending suggested edit over `[0, 3)`
(id 1, replacement a single character) and a questions span over
`[3, 6)`, in the six-character document `abcdef`. -/
def wC9Edit : Item :=
  { id := 1, text := "abc".toList, highlightedText := "abc".toList, prompt := []
    position := 0, length := 3, createdAt := 0, isAIGenerated := true
    isManualComment := false, tabId := editsKey
    originalText := some "abc".toList, editedText := some "x".toList }

def wC9Span : Item :=
  { id := 2, text := [], highlightedText := "def".toList, prompt := []
    position := 3, length := 3, createdAt := 1, isAIGenerated := false
    isManualComment := false, tabId := "questions".toList
    originalText := none, editedText := none }

def wC9St : RegState :=
  ⟨[("summary".toList, []), ("definitions".toList, []),
    ("questions".toList, [wC9Span]), (editsKey, [wC9Edit])], []⟩

/-- Counterexample to C9 as stated: the registry is valid for the
six-character document, but applying the accepted edit (which shortens
the document to `xdef`, four characters, without rebasing the other
spans) leaves the questions span with
`anchorStart + anchorLength = 6 > 4`. -/
theorem anchor_validity_counterexample :
    allValid 6 wC9St ∧
    ¬ allValid (((handleApplyEdit 1 wC9St "abcdef".toList).2.length : Int))
        (handleApplyEdit 1 wC9St "abcdef".toList).1 := by decide

/-- **C9** (amended): span creation (within a selection that is in
bounds) and rebasing on a single-component mutation event (a deletion or
an insertion that is in bounds) preserve the full anchor-validity
invariant for every span of the registry; applying an accepted edit
leaves every remaining span's `anchorStart >= 0` and `anchorLength >= 0`
intact, but does NOT preserve `anchorStart + anchorLength <=
documentTextLength` (see the counterexample). -/
theorem anchor_validity_preservation :
    (∀ (pr : ParseResult) (nid : Nat) (cAt : Int) (selText resultText : Str)
        (ed : Option Str) (selIndex selLength docLen : Int) (st : RegState),
      allValid docLen st → 0 ≤ selIndex → 0 ≤ selLength →
      selIndex + selLength ≤ docLen →
      allValid docLen (addSpan pr
        (createdItem nid cAt pr selText resultText ed selIndex selLength) st)) ∧
    (∀ (doc : Str) (dS dL docLen : Int) (st : RegState),
      0 ≤ dS → 0 < dL → dS + dL ≤ docLen → allValid docLen st →
      allValid (docLen - dL) (handleTextChange (mkDel dS dL) doc st)) ∧
    (∀ (doc : Str) (iS iL docLen : Int) (st : RegState),
      0 ≤ iS → 0 < iL → allValid docLen st →
      allValid (docLen + iL) (handleTextChange (mkIns iS iL) doc st)) ∧
    (∀ (editId : Nat) (st : RegState) (doc : Str) (docLen : Int),
      allValid docLen st →
      ∀ y ∈ allItems (handleApplyEdit editId st doc).1,
        0 ≤ y.position ∧ 0 ≤ y.length) := by
  refine ⟨?_, ?_, ?_, ?_⟩
  · intro pr nid cAt selText resultText ed selIndex selLength docLen st
      hval hi hl hb y hy
    rcases mem_addSpan hy with hy | rfl
    · exact hval y hy
    · exact ⟨hi, hl, hb⟩
  · intro doc dS dL docLen st hs hl hb hval y hy
    rw [handleTextChange_del dS dL doc st hs hl] at hy
    rcases mem_delPass_iff.mp hy with ⟨p, hp, x, hx, hadj⟩ | ⟨t, ht, x, hx, hadj⟩
    · exact delAdjust_valid hs hb
        (hval x (mem_allItems_iff.mpr (Or.inl ⟨p, hp, hx⟩))) hadj
    · exact delAdjust_valid hs hb
        (hval x (mem_allItems_iff.mpr (Or.inr ⟨t, ht, hx⟩))) hadj
  · intro doc iS iL docLen st hs hl hval y hy
    rw [handleTextChange_ins iS iL doc st hs hl] at hy
    rcases mem_insPass_iff.mp hy with ⟨p, hp, x, hx, hadj⟩ | ⟨t, ht, x, hx, hadj⟩
    · exact hadj ▸ insAdjust_valid (le_of_lt hl)
        (hval x (mem_allItems_iff.mpr (Or.inl ⟨p, hp, hx⟩)))
    · exact hadj ▸ insAdjust_valid (le_of_lt hl)
        (hval x (mem_allItems_iff.mpr (Or.inr ⟨t, ht, hx⟩)))
  · intro editId st doc docLen hval y hy
    obtain ⟨hp, hl, _⟩ := hval y (mem_handleApplyEdit hy)
    exact ⟨hp, hl⟩

/-- Witness for the amended C9: a deletion of `[1, 3)` in the
counterexample's (valid) six-character registry keeps every span valid
for the four-character result. -/
theorem anchor_validity_preservation_witness :
    allValid (6 - 2) (handleTextChange (mkDel 1 2) "adef".toList wC9St) :=
  anchor_validity_preservation.2.1 "adef".toList 1 2 6 wC9St (by decide)
    (by decide) (by decide) (by decide)

/-! ## C10: display ordering -/

/-- **C10** (display ordering): for every registry state and every
active tab, the displayed item sequence is sorted by `(anchorStart asc,
createdAt asc)`, is a permutation of the tab's raw item list, and is a
fixed point of the sort — re-sorting it (as every re-render does)
reproduces it identically. -/
theorem display_ordering (st : RegState) (tab : Str) :
    List.Sorted itemLE (displayedItems st tab) ∧
    (displayedItems st tab).Perm (rawTabItems st tab) ∧
    List.insertionSort itemLE (displayedItems st tab) = displayedItems st tab :=
  ⟨List.sorted_insertionSort itemLE _,
   List.perm_insertionSort itemLE _,
   List.Sorted.insertionSort_eq (List.sorted_insertionSort itemLE _)⟩

/-! ## C6: command parsing

String lemmas connecting the JS primitives, used to evaluate the parse
on schematic inputs. -/

lemma char_eq_iff_toNat (a b : Char) : a = b ↔ a.toNat = b.toNat := by
  constructor
  · intro h; rw [h]
  · intro h; exact Char.ext (UInt32.toNat.inj h)

lemma char_toNat_toLower (c : Char) :
    (Char.toLower c).toNat =
      if c.toNat ≥ 65 ∧ c.toNat ≤ 90 then c.toNat + 32 else c.toNat := by
  rw [Char.toLower]
  split_ifs with h
  · rw [Char.ofNat, dif_pos (Or.inl (by omega : c.toNat + 32 < 0xd800))]
    rfl
  · rfl

/-- Lower-casing never moves a character in or out of the whitespace
class. -/
lemma jsIsSpace_toLower (c : Char) : jsIsSpace (Char.toLower c) = jsIsSpace c := by
  unfold jsIsSpace
  have h1 := char_toNat_toLower c
  by_cases h : c.toNat ≥ 65 ∧ c.toNat ≤ 90
  · rw [if_pos h] at h1
    rw [Bool.eq_iff_iff]
    simp only [Bool.or_eq_true, decide_eq_true_eq, char_eq_iff_toNat, h1]
    have hsp : (' ' : Char).toNat = 32 := by decide
    have ht : ('\t' : Char).toNat = 9 := by decide
    have hn : ('\n' : Char).toNat = 10 := by decide
    have hr : ('\r' : Char).toNat = 13 := by decide
    rw [hsp, ht, hn, hr]
    omega
  · rw [if_neg h] at h1
    rw [(char_eq_iff_toNat _ _).mpr h1]

lemma dropWhile_map_toLower (s : Str) :
    List.dropWhile jsIsSpace (jsToLower s) =
      jsToLower (List.dropWhile jsIsSpace s) := by
  induction s with
  | nil => rfl
  | cons c t ih =>
    simp only [jsToLower, List.map_cons, List.dropWhile_cons,
      jsIsSpace_toLower]
    by_cases h : jsIsSpace c
    · rw [if_pos h, if_pos h]
      exact ih
    · rw [if_neg h, if_neg h]
      rfl

lemma ltrimS_toLower (s : Str) : ltrimS (jsToLower s) = jsToLower (ltrimS s) :=
  dropWhile_map_toLower s

lemma rtrimS_toLower (s : Str) : rtrimS (jsToLower s) = jsToLower (rtrimS s) := by
  unfold rtrimS List.rdropWhile
  rw [show (jsToLower s).reverse = jsToLower s.reverse from
      (List.map_reverse _ _).symm,
    dropWhile_map_toLower, jsToLower, jsToLower, List.map_reverse]

lemma jsTrim_toLower (s : Str) : jsTrim (jsToLower s) = jsToLower (jsTrim s) := by
  unfold jsTrim
  rw [rtrimS_toLower, ltrimS_toLower]

lemma dropWhile_append_split (p : Char → Bool) (x y : Str) :
    List.dropWhile p (x ++ y) =
      if List.dropWhile p x = [] then List.dropWhile p y
      else List.dropWhile p x ++ y := by
  induction x with
  | nil => simp
  | cons c t ih =>
    simp only [List.cons_append, List.dropWhile_cons]
    by_cases h : p c
    · rw [if_pos h, if_pos h, ih]
    · rw [if_neg h, if_neg h, if_neg (by simp)]
      rfl

/-- Right-trimming a string with a fixed prefix whose text itself needs
no trimming distributes over the append. -/
lemma rtrimS_append (a b : Str) (ha : rtrimS a = a) :
    rtrimS (a ++ b) = a ++ rtrimS b := by
  unfold rtrimS List.rdropWhile at ha ⊢
  rw [List.reverse_append, dropWhile_append_split, apply_ite List.reverse]
  by_cases h : List.dropWhile jsIsSpace b.reverse = []
  · rw [if_pos h, h, List.reverse_nil, List.append_nil, ha]
  · rw [if_neg h, List.reverse_append, List.reverse_reverse]

lemma rtrimS_prefix_self (s : Str) : rtrimS s <+: s := List.rdropWhile_prefix _ _

lemma rtrimS_idem (s : Str) : rtrimS (rtrimS s) = rtrimS s :=
  List.rdropWhile_idempotent _ _

lemma ltrimS_cons_not_space {c : Char} (h : jsIsSpace c = false) (s : Str) :
    ltrimS (c :: s) = c :: s := by
  unfold ltrimS
  rw [List.dropWhile_cons, if_neg (by simp [h])]

lemma jsTrim_cons_append (c : Char) (rest txt : Str) (hc : jsIsSpace c = false)
    (hr : rtrimS (c :: rest) = c :: rest) :
    jsTrim ((c :: rest) ++ txt) = (c :: rest) ++ rtrimS txt := by
  unfold jsTrim
  rw [rtrimS_append _ _ hr]
  exact ltrimS_cons_not_space hc _

lemma startsWith_self_append (pre s : Str) : startsWith pre (pre ++ s) = true := by
  rw [startsWith, List.isPrefixOf_iff_prefix]
  exact ⟨s, rfl⟩

/-- The lower-cased trimmed command for an input starting with a fixed
already-lower-case, already-trimmed literal. -/
lemma cmd_of_append (c : Char) (rest txt : Str) (hc : jsIsSpace c = false)
    (hr : rtrimS (c :: rest) = c :: rest)
    (hl : jsToLower (c :: rest) = c :: rest) :
    jsToLower (jsTrim ((c :: rest) ++ txt)) =
      (c :: rest) ++ jsToLower (rtrimS txt) := by
  rw [jsTrim_cons_append c rest txt hc hr, jsToLower, List.map_append]
  rw [show List.map Char.toLower (c :: rest) = jsToLower (c :: rest) from rfl, hl]
  rfl

lemma prompt_eval (txt : Str) :
    jsTrim (jsToLower (rtrimS txt)) = jsToLower (jsTrim txt) := by
  rw [jsTrim_toLower]
  unfold jsTrim
  rw [rtrimS_idem]

/-- `e/ai<text>` parses to an AI invocation on the edits tab with the
trimmed, lower-cased `<text>` as the prompt. -/
lemma parse_eai (txt : Str) (cts : List CustomTab) :
    parseCommand ("e/ai".toList ++ txt) cts =
      some ⟨editsKey, true, jsToLower (jsTrim txt), false⟩ := by
  simp only [parseCommand]
  rw [show ("e/ai".toList : Str) = 'e' :: "/ai".toList from rfl,
    cmd_of_append 'e' "/ai".toList txt (by decide) (by decide) (by decide),
    show ('e' :: "/ai".toList : Str) = "e/ai".toList from rfl,
    startsWith_self_append, if_pos rfl]
  rw [show (("e/ai".toList ++ jsToLower (rtrimS txt)).drop 4 : Str) =
      jsToLower (rtrimS txt) from rfl, prompt_eval]

/-- `s/ai<text>` parses to an AI invocation on the summary tab. -/
lemma parse_sai (txt : Str) (cts : List CustomTab) :
    parseCommand ("s/ai".toList ++ txt) cts =
      some ⟨"summary".toList, true, jsToLower (jsTrim txt), false⟩ := by
  simp only [parseCommand]
  rw [show ("s/ai".toList : Str) = 's' :: "/ai".toList from rfl,
    cmd_of_append 's' "/ai".toList txt (by decide) (by decide) (by decide),
    show ('s' :: "/ai".toList : Str) = "s/ai".toList from rfl]
  rw [show startsWith "e/ai".toList ("s/ai".toList ++ jsToLower (rtrimS txt)) =
      false from rfl, if_neg (by simp),
    startsWith_self_append, if_pos rfl]
  rw [show (("s/ai".toList ++ jsToLower (rtrimS txt)).drop 4 : Str) =
      jsToLower (rtrimS txt) from rfl, prompt_eval]

/-- `d/<text>` with `<text>` not starting (case-insensitively) with `ai`
parses to a manual comment on the definitions tab, with the prompt the
trimmed, lower-cased `<text>` — not the verbatim text. -/
lemma parse_dmanual (txt : Str) (cts : List CustomTab)
    (hai : ¬ List.IsPrefix "ai".toList (jsToLower txt)) :
    parseCommand ("d/".toList ++ txt) cts =
      some ⟨"definitions".toList, false, jsToLower (jsTrim txt), false⟩ := by
  have hnotai : startsWith "ai".toList (jsToLower (rtrimS txt)) = false := by
    rw [← Bool.not_eq_true, startsWith, List.isPrefixOf_iff_prefix]
    intro hp
    exact hai (hp.trans ((rtrimS_prefix_self txt).map Char.toLower))
  simp only [parseCommand]
  rw [show ("d/".toList : Str) = 'd' :: "/".toList from rfl,
    cmd_of_append 'd' "/".toList txt (by decide) (by decide) (by decide),
    show ('d' :: "/".toList : Str) = "d/".toList from rfl]
  rw [show startsWith "e/ai".toList ("d/".toList ++ jsToLower (rtrimS txt)) =
      false from rfl, if_neg (by simp)]
  rw [show startsWith "s/ai".toList ("d/".toList ++ jsToLower (rtrimS txt)) =
      false from rfl, if_neg (by simp)]
  rw [show startsWith "s/".toList ("d/".toList ++ jsToLower (rtrimS txt)) =
      false from rfl, if_neg (by simp)]
  rw [show startsWith "d/ai".toList ("d/".toList ++ jsToLower (rtrimS txt)) =
      startsWith "ai".toList (jsToLower (rtrimS txt)) from rfl,
    hnotai, if_neg (by simp),
    startsWith_self_append, if_pos rfl]
  rw [show (("d/".toList ++ jsToLower (rtrimS txt)).drop 2 : Str) =
      jsToLower (rtrimS txt) from rfl, prompt_eval]

/-- **C6** (amended): the bare letters `s`, `d`, `q` parse to their
built-in tabs with `useAI = false` and an empty prompt (no AI call —
not the claimed "default AI invocation"); the bare letter `e` matches no
built-in pattern and, with no custom shortcut, is the invalid-command
signal; `e/ai<text>` and `s/ai<text>` parse to AI invocations with the
trimmed lower-cased text as prompt; `d/<text>` (text not starting with
`ai`) parses to a manual comment storing the trimmed lower-cased text
(not the verbatim text); and unmatched input (`xyz`) is invalid. -/
theorem command_parsing :
    (∀ cts, parseCommand "s".toList cts =
      some ⟨"summary".toList, false, [], false⟩) ∧
    (∀ cts, parseCommand "d".toList cts =
      some ⟨"definitions".toList, false, [], false⟩) ∧
    (∀ cts, parseCommand "q".toList cts =
      some ⟨"questions".toList, false, [], false⟩) ∧
    parseCommand "e".toList [] = none ∧
    (∀ txt cts, parseCommand ("e/ai".toList ++ txt) cts =
      some ⟨editsKey, true, jsToLower (jsTrim txt), false⟩) ∧
    (∀ txt cts, parseCommand ("s/ai".toList ++ txt) cts =
      some ⟨"summary".toList, true, jsToLower (jsTrim txt), false⟩) ∧
    (∀ txt cts, ¬ List.IsPrefix "ai".toList (jsToLower txt) →
      parseCommand ("d/".toList ++ txt) cts =
        some ⟨"definitions".toList, false, jsToLower (jsTrim txt), false⟩) ∧
    parseCommand "xyz".toList [] = none :=
  ⟨fun _ => rfl, fun _ => rfl, fun _ => rfl, rfl,
   parse_eai, parse_sai, parse_dmanual, rfl⟩

/-- Counterexample to C6 as stated: the bare letter `e` is rejected as
an invalid command (the source has no `cmd === 'e'` branch), and the
bare letter `s` parses with `useAI = false` (no AI call is made) —
both contradicting the claim that a bare built-in letter among
`s, d, q, e` is a default AI invocation for its tab. -/
theorem command_parsing_counterexample :
    parseCommand "e".toList [] = none ∧
    parseCommand "s".toList [] =
      some ⟨"summary".toList, false, [], false⟩ := ⟨rfl, rfl⟩

/-- Witness for the amended C6, at the spec's own example
`"d/ photosynthesis note"`. -/
theorem command_parsing_witness :
    parseCommand ("d/".toList ++ " photosynthesis note".toList) [] =
      some ⟨"definitions".toList, false,
        jsToLower (jsTrim " photosynthesis note".toList), false⟩ :=
  command_parsing.2.2.2.2.2.2.1 " photosynthesis note".toList [] (by decide)

/-! ## C8: custom-tab shortcut admissibility -/

/-- **C8**: `handleCreateCustomTab` accepts the reserved built-in letter
`s` as a new custom shortcut (no disjointness check exists — only
duplicate and blank checks), it rejects a duplicate of an existing
custom shortcut, and the resulting `s`-shortcut custom tab is
unreachable: the parser resolves `s` to the built-in summary tab
first. -/
theorem createCustomTab_reserved_shortcut :
    handleCreateCustomTab "My tab".toList "s".toList "id1".toList [] =
      some [⟨"id1".toList, "My tab".toList, "s".toList, []⟩] ∧
    handleCreateCustomTab "Other".toList "S".toList "id2".toList
      [⟨"id1".toList, "My tab".toList, "s".toList, []⟩] = none ∧
    parseCommand "s".toList [⟨"id1".toList, "My tab".toList, "s".toList, []⟩] =
      some ⟨"summary".toList, false, [], false⟩ := by decide

/-! ## C7: Edit Applier atomicity -/

/-- `handleAcceptEdit` succeeds — committing the content rewrite and the
item removal together — exactly when some single text node contains the
normalized target; on every other path (target absent from the whole
flattened text, or present only across node boundaries, where the
fallback's shadowed-`document` `TypeError` is caught) the store is
returned untouched with the failure flag.  No path commits exactly one
of the two updates. -/
lemma handleAcceptEdit_characterization (task : EditTask) (st : Store) :
    handleAcceptEdit task st =
      if containsCI (normalizeText (st.document).flatten)
            (normalizeText task.targetText)
          && anyNodeContains (normalizeText task.targetText) st.document then
        ({ document :=
             (st.document.map (nodeReplace (normalizeText task.targetText)
               (normalizeText task.suggestedEdit))).map
               (todoClean task.description),
           actionItems := st.actionItems.eraseIdx task.originalIndex }, true)
      else (st, false) := by
  by_cases h1 : containsCI (normalizeText (st.document).flatten)
      (normalizeText task.targetText) = true
  · by_cases h2 : anyNodeContains (normalizeText task.targetText) st.document = true
    · simp only [handleAcceptEdit, h1, h2, Bool.not_true, Bool.false_eq_true,
        if_false, Bool.and_self, if_true, Bool.false_and, Bool.and_true]
    · simp only [Bool.not_eq_true] at h2
      simp only [handleAcceptEdit, h1, h2, Bool.not_true, Bool.not_false,
        Bool.true_and, Bool.and_true, Bool.and_false, Bool.false_eq_true,
        if_false, if_true, Bool.true_eq_false]
  · simp only [Bool.not_eq_true] at h1
    simp only [handleAcceptEdit, h1, Bool.not_false, if_true, Bool.false_and,
      Bool.false_eq_true, if_false]

/-- The C7 failing input: the target `hello world` occurs in the
flattened document text but only across the two text nodes
`Hello wor` / `ld!`. -/
def wC7Task : EditTask :=
  { targetText := "hello world".toList
    suggestedEdit := "Goodbye".toList
    description := "fix greeting".toList
    originalIndex := 0 }

def wC7St : Store :=
  { document := ["Hello wor".toList, "ld!".toList]
    actionItems := [wC7Task] }

/-- **C7** evaluated at the failing input: the normalized target occurs
case-insensitively in the flattened document text, no single node
contains it, and the spec's tag-tolerant step-4 pattern locates it in
the flattened body (consuming 11 characters, the whole of
`Hello world`) — yet `handleAcceptEdit` fails, leaving the
content unmodified and the item retained, because the source's fallback
calls `document.createElement` on the fetched response data (the local
`const document` shadows the DOM global) and the resulting `TypeError`
aborts the handler with a generic alert instead of the target-not-found
message and the step-4 rewrite the claim requires.  Atomicity in the
narrow sense survives: neither update is applied. -/
theorem accept_edit_fallback_crash :
    containsCI (normalizeText (wC7St.document).flatten)
      (normalizeText wC7Task.targetText) = true ∧
    anyNodeContains (normalizeText wC7Task.targetText) wC7St.document = false ∧
    matchWords ((normalizeText wC7Task.targetText).splitOn ' ')
      (wC7St.document).flatten = some 11 ∧
    handleAcceptEdit wC7Task wC7St = (wC7St, false) := by decide

end DropboxAI
